import Mathlib

/-!
Shallow embedding of `summary.go` from br-kearns/go-tdigest.

Modelling conventions:
* `float64` means are modelled by `GoFloat`: either NaN or an exact rational
  value.  The code only compares means (`>`, `>=`, `<`) and tests for NaN,
  and Go comparisons involving NaN always yield `false`, which the
  `Bool`-valued comparison functions reproduce.  Infinities behave in
  comparisons like ordinary ordered values and are not distinguished.
* `uint64` counts are modelled as `Nat`, with `% 2 ^ 64` applied exactly
  where the Go code performs `uint64` arithmetic.
* Every `float64` value flowing through `FloorSum`'s accumulator and
  `HeadSum`'s `float64(uint64)` conversion is integer-valued (counts are
  integers, and IEEE rounding of an integer yields an integer), so these
  doubles are represented by the integers they encode, and each `float64`
  conversion, addition and subtraction rounds its exact integer result
  with `roundDouble` (round to nearest, ties to even, 53-bit
  significand).  Values at or beyond `2 ^ 1024` (infinite in `float64`)
  are outside the scope of every theorem below.  The query target `sum`
  is a comparison-only input and is modelled as an exact rational.
* Out-of-range slice accesses panic in Go; the embedding is total
  (`List.getD`, `List.take`, ...), and each theorem restricts indices the
  way the Go code's callers must.
-/

namespace TDigest

/-- Modulus of Go `uint64` arithmetic. -/
def M : Nat := 2 ^ 64

/-- A Go `float64` as used by `summary.go`: NaN, or an exact numeric value. -/
inductive GoFloat where
  | nan : GoFloat
  | val : ℚ → GoFloat
deriving DecidableEq

/-- Go `math.IsNaN`. -/
def GoFloat.isNaN : GoFloat → Bool
  | .nan => true
  | .val _ => false

/-- Go `a > b` on `float64`: `false` whenever an operand is NaN. -/
def GoFloat.gtB : GoFloat → GoFloat → Bool
  | .val a, .val b => decide (b < a)
  | _, _ => false

/-- Go `a >= b` on `float64`: `false` whenever an operand is NaN. -/
def GoFloat.geB : GoFloat → GoFloat → Bool
  | .val a, .val b => decide (b ≤ a)
  | _, _ => false

/-- Go `a < b` on `float64`: `false` whenever an operand is NaN. -/
def GoFloat.ltB : GoFloat → GoFloat → Bool
  | .val a, .val b => decide (a < b)
  | _, _ => false

/-- Go `a <= b` on `float64`: `false` whenever an operand is NaN. -/
def GoFloat.leB : GoFloat → GoFloat → Bool
  | .val a, .val b => decide (a ≤ b)
  | _, _ => false

/-- One centroid: the `(means[i], counts[i])` pair of the two parallel
slices of `summary`.  All operations of `summary.go` move the two slices in
lockstep, so the summary is embedded as a single list of pairs. -/
abbrev Centroid := GoFloat × Nat

/-- The `summary` struct: the paired contents of `s.means` / `s.counts`. -/
abbrev Summary := List Centroid

/-- The `s.means` slice. -/
def means (s : Summary) : List GoFloat := s.map Prod.fst

/-- The `s.counts` slice. -/
def counts (s : Summary) : List Nat := s.map Prod.snd

/-- `newSummary`: the capacity hint only affects allocation; the new
summary is empty. -/
def newSummary : Summary := []

/-- `Len()`. -/
def Len (s : Summary) : Nat := s.length

/-- `Mean(uncheckedIndex)` (out-of-range access, which panics in Go, is
modelled by the NaN default and never exercised by the theorems). -/
def Mean (s : Summary) (uncheckedIndex : Nat) : GoFloat :=
  (means s).getD uncheckedIndex .nan

/-- `Count(uncheckedIndex)` (same convention as `Mean`). -/
def Count (s : Summary) (uncheckedIndex : Nat) : Nat :=
  (counts s).getD uncheckedIndex 0

/-- `GetTotalCount()`: accumulates the counts in a `uint64`. -/
def GetTotalCount (s : Summary) : Nat :=
  (counts s).foldl (fun acc c => (acc + c) % M) 0

/-- The loop of Go's `sort.Search`: binary search on `[i, j)` for the least
index satisfying `pred`, exactly as in the Go standard library
(`h := (i + j) / 2` is inlined). -/
def sortSearchAux (pred : Nat → Bool) (i j : Nat) : Nat :=
  if hij : i < j then
    if pred ((i + j) / 2) then sortSearchAux pred i ((i + j) / 2)
    else sortSearchAux pred ((i + j) / 2 + 1) j
  else i
termination_by j - i
decreasing_by
  · omega
  · omega

/-- Go `sort.Search(n, pred)`. -/
def sortSearch (n : Nat) (pred : Nat → Bool) : Nat := sortSearchAux pred 0 n

/-- `findInsertionIndex(x)`: linear scan for the first mean `> x` below 250
entries, otherwise `sort.Search` with the same predicate. -/
def findInsertionIndex (s : Summary) (x : GoFloat) : Nat :=
  if s.length < 250 then
    (means s).findIdx (fun mean => mean.gtB x)
  else
    sortSearch s.length (fun i => ((means s).getD i .nan).gtB x)

/-- The validation errors `Add` can return. -/
inductive AddError where
  | nanMean : AddError
  | zeroCount : AddError
deriving DecidableEq

/-- `Add(key, value)`: validate, then insert the pair at
`findInsertionIndex(key)` (the Go code grows both slices by one and shifts
the tail right with `copy`, which is exactly insertion at `idx`).  The
returned summary is the mutated receiver; validation happens before any
mutation, so on error the receiver is returned unchanged. -/
def Add (s : Summary) (key : GoFloat) (value : Nat) : Summary × Option AddError :=
  if key.isNaN then (s, some .nanMean)
  else if value = 0 then (s, some .zeroCount)
  else
    let idx := findInsertionIndex s key
    (s.take idx ++ (key, value) :: s.drop idx, none)

/-- Runs a sequence of `Add` calls from a starting state, failing (`none`)
if any call reports an error. -/
def runAdds (s : Summary) : List (GoFloat × Nat) → Option Summary
  | [] => some s
  | (m, c) :: rest =>
    match Add s m c with
    | (s', none) => runAdds s' rest
    | (_, some _) => none

/-- `sumUntilIndex(s, idx)`, inner 4-way-unrolled descending loop: the
argument list is the reversed prefix `s[idx-1], ..., s[0]`; while at least
four elements remain the loop body adds four of them, then the tail loop
adds the rest one at a time.  Each `uint64` addition is reduced `% M`. -/
def sumUnrolledRev : List Nat → Nat → Nat
  | a :: b :: c :: d :: rest, acc =>
    sumUnrolledRev rest (((((acc + a) % M + b) % M + c) % M + d) % M)
  | l, acc => l.foldl (fun acc x => (acc + x) % M) acc

/-- `sumUntilIndex(s, idx)`: sums `s[idx-1] ... s[0]` (nothing when
`idx <= 0`, which the Go loops skip). -/
def sumUntilIndex (cs : List Nat) (idx : Int) : Nat :=
  sumUnrolledRev ((cs.take idx.toNat).reverse) 0

/-- The `uint64` prefix sum inside Go's `HeadSum`, before the final
`float64` conversion (this integer level is what C8's unrolling claim is
about). -/
def HeadSum (s : Summary) (idx : Int) : Nat := sumUntilIndex (counts s) idx

/-- `findIndex(x)`: like `findInsertionIndex` with `>=` instead of `>`. -/
def findIndex (s : Summary) (x : GoFloat) : Nat :=
  if s.length < 250 then
    (means s).findIdx (fun mean => mean.geB x)
  else
    sortSearch s.length (fun i => ((means s).getD i .nan).geB x)

/-- `Floor(x) = findIndex(x) - 1`. -/
def Floor (s : Summary) (x : GoFloat) : Int := (findIndex s x : Int) - 1

/-- Fuel-driven search for the least `e` with `n / 2 ^ e < 2 ^ 53`,
equivalently the least `e` with `n < 2 ^ (53 + e)`: the exponent of the
unit in the last place of `n` as a `float64`.  The fuel covers every value
below `2 ^ 2101`, far beyond the `float64` range. -/
def ulpExpAux : Nat → Nat → Nat
  | 0, _ => 0
  | fuel + 1, n => if n < 2 ^ 53 then 0 else ulpExpAux fuel (n / 2) + 1

/-- The ulp exponent of a nonnegative integer as a `float64`. -/
def ulpExp (n : Nat) : Nat := ulpExpAux 2048 n

/-- IEEE-754 `float64` rounding of a nonnegative integer: round to the
nearest multiple of `2 ^ ulpExp n` (the nearest representable double),
ties to the even multiple.  Identity below `2 ^ 53`. -/
def roundDouble (n : Nat) : Nat :=
  let ulp := 2 ^ ulpExp n
  let q := n / ulp
  let r := n % ulp
  if 2 * r < ulp then q * ulp
  else if ulp < 2 * r then (q + 1) * ulp
  else (if q % 2 = 0 then q else q + 1) * ulp

/-- The loop of `FloorSum`: `i` is the position of the head of `cs` in the
original counts slice, `cumSum` the `float64` accumulator, `index` the last
qualifying position (`-1` initially).  The accumulator always holds an
integer-valued double, kept as the integer it encodes;
`cumSum += float64(count)` converts the count (`roundDouble c`) and rounds
the float64 addition (outer `roundDouble`), and the comparison with the
rational target is through a cast. -/
def floorSumAux (cs : List Nat) (sum : ℚ) (i : Nat) (cumSum : Nat) (index : Int) :
    Int × Nat :=
  match cs with
  | [] => (index, cumSum)
  | c :: rest =>
    if (cumSum : ℚ) ≤ sum then
      floorSumAux rest sum (i + 1) (roundDouble (cumSum + roundDouble c)) (i : Int)
    else (index, cumSum)

/-- `FloorSum(sum)`: scan accumulating counts; afterwards, when a position
qualified, subtract the position's count so that `cumSum` is the head sum
before it.  `cumSum -= float64(counts[index])` is a rounded `float64`
subtraction; the accumulator is never below `float64(counts[index])`
(rounding is monotone and that summand was the last one folded in), so the
`Nat` subtraction inside `roundDouble` is the exact integer difference. -/
def FloorSum (s : Summary) (sum : ℚ) : Int × Nat :=
  let r := floorSumAux (counts s) sum 0 0 (-1)
  if r.1 ≠ -1 then (r.1, roundDouble (r.2 - roundDouble ((counts s).getD r.1.toNat 0)))
  else r

/-- The `float64` value Go's `HeadSum(idx)` actually returns:
`float64(sumUntilIndex(...))`, the `uint64` prefix sum rounded to the
nearest double, kept as the integer it encodes. -/
def HeadSumF (s : Summary) (idx : Int) : Nat := roundDouble (HeadSum s idx)

/-- The loop of `adjustRight`, acting on `s[index:]`: swap the moved
element rightward past each strictly smaller right neighbour. -/
def adjustRightAux : List Centroid → List Centroid
  | a :: b :: rest =>
    if a.1.gtB b.1 then b :: adjustRightAux (a :: rest) else a :: b :: rest
  | l => l

/-- `adjustRight(index)`. -/
def adjustRight (s : Summary) (index : Nat) : Summary :=
  s.take index ++ adjustRightAux (s.drop index)

/-- The loop of `adjustLeft`, with the prefix before the moved element held
reversed: swap the moved element leftward past each strictly greater left
neighbour. -/
def adjustLeftAux : List Centroid → Centroid → List Centroid → List Centroid
  | [], a, rest => a :: rest
  | b :: rpre, a, rest =>
    if b.1.gtB a.1 then adjustLeftAux rpre a (b :: rest)
    else (b :: rpre).reverse ++ a :: rest

/-- `adjustLeft(index)`. -/
def adjustLeft (s : Summary) (index : Nat) : Summary :=
  match s.drop index with
  | [] => s
  | a :: rest => adjustLeftAux (s.take index).reverse a rest

/-- `setAt(index, mean, count)`: overwrite, then re-sort locally. -/
def setAt (s : Summary) (index : Nat) (mean : GoFloat) (count : Nat) : Summary :=
  adjustLeft (adjustRight (s.set index (mean, count)) index) index

/-- `Swap(means, counts, i, j)`: swap both slices at `i` and `j`. -/
def swapPairs (l : Summary) (i j : Nat) : Summary :=
  (l.set i (l.getD j (.nan, 0))).set j (l.getD i (.nan, 0))

/-- The loop of `shuffle`: `for i := len(means) - 1; i > 1; i--` swapping
position `i` with `rng.Intn(i+1)`.  The RNG is modelled as a function from
the `Intn` bound to the draw; within one shuffle every call uses a distinct
bound, so this loses no generality. -/
def shuffleAux (rng : Nat → Nat) : Nat → Summary → Summary
  | 0, l => l
  | 1, l => l
  | i + 2, l => shuffleAux rng (i + 1) (swapPairs l (i + 2) (rng (i + 3)))

/-- `shuffle(rng)`. -/
def shuffle (s : Summary) (rng : Nat → Nat) : Summary :=
  shuffleAux rng (s.length - 1) s

/-- The sort invariant of `summary`: no mean is NaN and the mean sequence
is non-decreasing. -/
def SortedS (s : Summary) : Prop :=
  (∀ p ∈ s, p.1.isNaN = false) ∧ (means s).Pairwise (fun a b => a.leB b = true)

instance (s : Summary) : Decidable (SortedS s) := by
  unfold SortedS; infer_instance

/-- Modelled from the spec: "`HeadSum(idx)`: returns the sum of counts of
all centroids strictly before `idx`", as the plain (non-unrolled)
`uint64` prefix-sum loop the spec calls functionally equivalent. -/
def headSumSpec (cs : List Nat) (idx : Nat) : Nat :=
  (cs.take idx).foldl (fun acc c => (acc + c) % M) 0

/-- Number of loop iterations of `FloorSum` that set `index` (i.e. entered
with `cumSum ≤ sum`), with the accumulator advanced exactly as in
`floorSumAux`; a proof aid for characterising `floorSumAux`. -/
def stepsTaken (sum : ℚ) : List Nat → Nat → Nat
  | [], _ => 0
  | c :: rest, cum =>
    if (cum : ℚ) ≤ sum then
      stepsTaken sum rest (roundDouble (cum + roundDouble c)) + 1
    else 0

/-- The rounded `float64` accumulation of a list of counts on top of an
accumulator value, exactly as `floorSumAux` advances it; a proof aid. -/
def flAcc (cum : Nat) (l : List Nat) : Nat :=
  l.foldl (fun a c => roundDouble (a + roundDouble c)) cum

theorem M_pos : 0 < M := by decide

theorem foldl_mod_eq (l : List Nat) (acc : Nat) (h : acc < M) :
    l.foldl (fun a x => (a + x) % M) acc = (acc + l.sum) % M := by
  induction l generalizing acc with
  | nil => simpa using (Nat.mod_eq_of_lt h).symm
  | cons x rest ih =>
    simp only [List.foldl_cons, List.sum_cons]
    rw [ih _ (Nat.mod_lt _ M_pos), Nat.mod_add_mod]
    congr 1
    omega

theorem sumUnrolledRev_eq (l : List Nat) (acc : Nat) (h : acc < M) :
    sumUnrolledRev l acc = (acc + l.sum) % M := by
  induction l, acc using sumUnrolledRev.induct with
  | case1 a b c d rest acc ih =>
    refine ((ih (Nat.mod_lt _ M_pos)).trans ?_ :
      sumUnrolledRev (a :: b :: c :: d :: rest) acc = _)
    simp only [List.sum_cons, Nat.mod_add_mod, Nat.add_assoc]
  | case2 l acc h4 =>
    rcases l with _ | ⟨a, _ | ⟨b, _ | ⟨c, _ | ⟨d, rest⟩⟩⟩⟩
    · exact foldl_mod_eq _ _ h
    · exact foldl_mod_eq _ _ h
    · exact foldl_mod_eq _ _ h
    · exact foldl_mod_eq _ _ h
    · exact absurd rfl (h4 a b c d rest)

theorem sumUntilIndex_eq (cs : List Nat) (idx : Int) :
    sumUntilIndex cs idx = (cs.take idx.toNat).sum % M := by
  unfold sumUntilIndex
  rw [sumUnrolledRev_eq _ _ M_pos, List.sum_reverse, Nat.zero_add]

/-- **C8.** For every summary and every index `0 ≤ idx ≤ Len()`,
`HeadSum(idx)` agrees with the plain `uint64` prefix sum of the counts over
`[0, idx)`, despite the manually 4-way-unrolled implementation. -/
theorem headSum_eq_prefix_sum (s : Summary) (idx : Int) (h0 : 0 ≤ idx)
    (hlen : idx ≤ (Len s : Int)) :
    HeadSum s idx = headSumSpec (counts s) idx.toNat := by
  rw [HeadSum, sumUntilIndex_eq, headSumSpec, foldl_mod_eq _ _ M_pos, Nat.zero_add]

/-- Witness for C8 at a concrete summary and index. -/
theorem headSum_eq_prefix_sum_witness :
    (0 : Int) ≤ 2 ∧ (2 : Int) ≤ (Len [((.val 1 : TDigest.GoFloat), 4), (.val 2, 5), (.val 3, 6)] : Int) ∧
      HeadSum [((.val 1 : TDigest.GoFloat), 4), (.val 2, 5), (.val 3, 6)] 2 =
        headSumSpec (counts [((.val 1 : TDigest.GoFloat), 4), (.val 2, 5), (.val 3, 6)]) (2 : Int).toNat :=
  ⟨by decide, by decide,
    headSum_eq_prefix_sum [(.val 1, 4), (.val 2, 5), (.val 3, 6)] 2 (by decide) (by decide)⟩

/-- **C2.** `Add(NaN, c)` and `Add(m, 0)` both return an error and leave
the summary unchanged: same `Len()` and identical means and counts. -/
theorem add_rejects_invalid (s : Summary) (c : Nat) (m : GoFloat) :
    (Add s .nan c).2.isSome = true ∧ (Add s .nan c).1 = s ∧
      Len (Add s .nan c).1 = Len s ∧
      means (Add s .nan c).1 = means s ∧ counts (Add s .nan c).1 = counts s ∧
      (Add s m 0).2.isSome = true ∧ (Add s m 0).1 = s ∧
      Len (Add s m 0).1 = Len s ∧
      means (Add s m 0).1 = means s ∧ counts (Add s m 0).1 = counts s := by
  cases m <;> simp [Add, GoFloat.isNaN]

/-- **C6.** Starting empty, `Add(5.0, 1)`, `Add(3.0, 2)`, `Add(3.0, 1)`
yields means `[3.0, 3.0, 5.0]` with counts `[2, 1, 1]` (right-biased equal
insertion), on which `HeadSum(2) = 3`, `Floor(4.0) = 1`, and
`FloorSum(2) = (1, 2)`. -/
theorem concrete_scenario :
    runAdds newSummary [(.val 5, 1), (.val 3, 2), (.val 3, 1)] =
        some [(.val 3, 2), (.val 3, 1), (.val 5, 1)] ∧
      means [((.val 3 : GoFloat), 2), (.val 3, 1), (.val 5, 1)] = [.val 3, .val 3, .val 5] ∧
      counts [((.val 3 : GoFloat), 2), (.val 3, 1), (.val 5, 1)] = [2, 1, 1] ∧
      HeadSum [((.val 3 : GoFloat), 2), (.val 3, 1), (.val 5, 1)] 2 = 3 ∧
      Floor [((.val 3 : GoFloat), 2), (.val 3, 1), (.val 5, 1)] (.val 4) = 1 ∧
      FloorSum [((.val 3 : GoFloat), 2), (.val 3, 1), (.val 5, 1)] 2 = (1, 2) := by
  refine ⟨by decide, by decide, by decide, by decide, by decide, by decide⟩

theorem GoFloat.leB_true (a b : GoFloat) :
    a.leB b = true ↔ ∃ p q, a = .val p ∧ b = .val q ∧ p ≤ q := by
  cases a <;> cases b <;> simp [GoFloat.leB]

theorem GoFloat.ltB_true (a b : GoFloat) :
    a.ltB b = true ↔ ∃ p q, a = .val p ∧ b = .val q ∧ p < q := by
  cases a <;> cases b <;> simp [GoFloat.ltB]

theorem GoFloat.gtB_true (a b : GoFloat) :
    a.gtB b = true ↔ ∃ p q, a = .val p ∧ b = .val q ∧ q < p := by
  cases a <;> cases b <;> simp [GoFloat.gtB]

theorem GoFloat.geB_true (a b : GoFloat) :
    a.geB b = true ↔ ∃ p q, a = .val p ∧ b = .val q ∧ q ≤ p := by
  cases a <;> cases b <;> simp [GoFloat.geB]

theorem sortSearchAux_spec (P : Nat → Bool) (n : Nat)
    (mono : ∀ a b, a ≤ b → b < n → P a = true → P b = true) (i j : Nat) :
    i ≤ j → j ≤ n → (∀ m, m < i → P m = false) → (∀ m, j ≤ m → m < n → P m = true) →
      (∀ m, m < sortSearchAux P i j → P m = false) ∧
        (∀ m, sortSearchAux P i j ≤ m → m < n → P m = true) ∧
        sortSearchAux P i j ≤ j := by
  induction i, j using sortSearchAux.induct P with
  | case1 i j hij hP ih =>
    intro _ hjn hlow hhigh
    rw [sortSearchAux, dif_pos hij, if_pos hP]
    have hmid : (i + j) / 2 < j := by omega
    obtain ⟨l1, l2, l3⟩ :=
      ih (by omega) (by omega) hlow (fun m hm hmn => mono _ _ hm hmn hP)
    exact ⟨l1, l2, by omega⟩
  | case2 i j hij hP ih =>
    intro _ hjn hlow hhigh
    rw [sortSearchAux, dif_pos hij, if_neg hP]
    have hmid : (i + j) / 2 < j := by omega
    refine ih (by omega) hjn ?_ hhigh
    intro m hm
    rcases Nat.lt_or_ge m i with hmi | hmi
    · exact hlow m hmi
    · by_contra hPm
      exact hP (mono m _ (by omega) (by omega) (by simpa using hPm))
  | case3 i j hij =>
    intro hij' hjn hlow hhigh
    rw [sortSearchAux, dif_neg hij]
    have : i = j := by omega
    subst this
    exact ⟨hlow, hhigh, le_refl i⟩

theorem sortSearch_spec (P : Nat → Bool) (n : Nat)
    (mono : ∀ a b, a ≤ b → b < n → P a = true → P b = true) :
    (∀ m, m < sortSearch n P → P m = false) ∧
      (∀ m, sortSearch n P ≤ m → m < n → P m = true) ∧ sortSearch n P ≤ n :=
  sortSearchAux_spec P n mono 0 n (Nat.zero_le n) (le_refl n)
    (fun m hm => absurd hm (Nat.not_lt_zero m))
    (fun m hm hmn => absurd hmn (Nat.not_lt.mpr hm))

theorem findIdx_spec (l : List GoFloat) (p : GoFloat → Bool) :
    l.findIdx p ≤ l.length ∧
      (∀ m, m < l.findIdx p → p (l.getD m .nan) = false) ∧
      (l.findIdx p < l.length → p (l.getD (l.findIdx p) .nan) = true) := by
  refine ⟨List.findIdx_le_length p, ?_, ?_⟩
  · intro m hm
    have hml : m < l.length := lt_of_lt_of_le hm (List.findIdx_le_length p)
    rw [List.getD_eq_getElem l .nan hml]
    exact List.not_of_lt_findIdx hm
  · intro hlt
    rw [List.getD_eq_getElem l .nan hlt]
    exact List.findIdx_getElem

/-- Helps move monotonicity of a predicate along a sorted mean list. -/
theorem pairwise_pred_mono (ms : List GoFloat)
    (hp : ms.Pairwise (fun a b => a.leB b = true)) (P : GoFloat → Bool)
    (hP : ∀ a b, a.leB b = true → P a = true → P b = true) :
    ∀ a b, a ≤ b → b < ms.length → P (ms.getD a .nan) = true →
      P (ms.getD b .nan) = true := by
  intro a b hab hb hPa
  rcases Nat.eq_or_lt_of_le hab with rfl | hlt
  · exact hPa
  · have ha : a < ms.length := lt_trans hlt hb
    rw [List.getD_eq_getElem ms .nan ha] at hPa
    rw [List.getD_eq_getElem ms .nan hb]
    exact hP _ _ (List.pairwise_iff_getElem.mp hp a b ha hb hlt) hPa

/-- On a sorted mean list, the Go binary search agrees with the linear scan
for any monotone mean predicate. -/
theorem sortSearch_eq_findIdx (ms : List GoFloat)
    (hp : ms.Pairwise (fun a b => a.leB b = true)) (P : GoFloat → Bool)
    (hP : ∀ a b, a.leB b = true → P a = true → P b = true) :
    sortSearch ms.length (fun i => P (ms.getD i .nan)) = ms.findIdx P := by
  obtain ⟨slow, shigh, sle⟩ :=
    sortSearch_spec (fun i => P (ms.getD i .nan)) ms.length
      (pairwise_pred_mono ms hp P hP)
  obtain ⟨fle, flow, fat⟩ := findIdx_spec ms P
  rcases Nat.lt_trichotomy (sortSearch ms.length (fun i => P (ms.getD i .nan)))
    (ms.findIdx P) with hlt | heq | hgt
  · have h1 := flow _ hlt
    have h2 := shigh _ (le_refl _) (lt_of_lt_of_le hlt fle)
    rw [h1] at h2
    exact absurd h2 (Bool.false_ne_true)
  · exact heq
  · have h1 := slow _ hgt
    have h2 := fat (lt_of_lt_of_le hgt sle)
    rw [h1] at h2
    exact absurd h2 (Bool.false_ne_true)

/-- `findInsertionIndex` agrees with the linear scan on sorted summaries,
whichever branch the size threshold picks. -/
theorem findInsertionIndex_eq (s : Summary) (x : GoFloat) (hs : SortedS s) :
    findInsertionIndex s x = (means s).findIdx (fun mean => mean.gtB x) := by
  unfold findInsertionIndex
  split
  · rfl
  · have hlen : s.length = (means s).length := by simp [means]
    rw [hlen]
    refine sortSearch_eq_findIdx (means s) hs.2 (fun mean => mean.gtB x) ?_
    intro a b hab hPa
    rw [GoFloat.leB_true] at hab
    rw [GoFloat.gtB_true] at hPa ⊢
    obtain ⟨p, q, rfl, rfl, hpq⟩ := hab
    obtain ⟨p', q', hp', rfl, hq'⟩ := hPa
    cases hp'
    exact ⟨q, q', rfl, rfl, lt_of_lt_of_le hq' hpq⟩

/-- `findIndex` agrees with the linear scan on sorted summaries, whichever
branch the size threshold picks. -/
theorem findIndex_eq (s : Summary) (x : GoFloat) (hs : SortedS s) :
    findIndex s x = (means s).findIdx (fun mean => mean.geB x) := by
  unfold findIndex
  split
  · rfl
  · have hlen : s.length = (means s).length := by simp [means]
    rw [hlen]
    refine sortSearch_eq_findIdx (means s) hs.2 (fun mean => mean.geB x) ?_
    intro a b hab hPa
    rw [GoFloat.leB_true] at hab
    rw [GoFloat.geB_true] at hPa ⊢
    obtain ⟨p, q, rfl, rfl, hpq⟩ := hab
    obtain ⟨p', q', hp', rfl, hq'⟩ := hPa
    cases hp'
    exact ⟨q, q', rfl, rfl, le_trans hq' hpq⟩

theorem mem_insert_split {k : Nat} {l : List Centroid} {a x : Centroid}
    (hx : x ∈ l.take k ++ a :: l.drop k) : x = a ∨ x ∈ l := by
  rcases List.mem_append.mp hx with h | h
  · exact Or.inr (List.mem_of_mem_take h)
  · rcases List.mem_cons.mp h with h | h
    · exact Or.inl h
    · exact Or.inr (List.mem_of_mem_drop h)

theorem mem_insert_split_means {k : Nat} {ms : List GoFloat} {a x : GoFloat}
    (hx : x ∈ ms.take k ++ a :: ms.drop k) : x = a ∨ x ∈ ms := by
  rcases List.mem_append.mp hx with h | h
  · exact Or.inr (List.mem_of_mem_take h)
  · rcases List.mem_cons.mp h with h | h
    · exact Or.inl h
    · exact Or.inr (List.mem_of_mem_drop h)

/-- Inserting a (non-NaN) new mean at the right-biased insertion point of a
sorted mean list keeps the list sorted. -/
theorem pairwise_insert_at_findIdx (ms : List GoFloat) (q : ℚ)
    (hnn : ∀ m ∈ ms, m.isNaN = false)
    (hp : ms.Pairwise (fun a b => a.leB b = true)) :
    (ms.take (ms.findIdx (fun m => m.gtB (.val q))) ++
        .val q :: ms.drop (ms.findIdx (fun m => m.gtB (.val q)))).Pairwise
      (fun a b => a.leB b = true) := by
  induction ms with
  | nil => simp
  | cons m rest ih =>
    rw [List.findIdx_cons]
    rcases List.pairwise_cons.mp hp with ⟨hm, hrest⟩
    have hmv : ∃ a, m = GoFloat.val a := by
      have := hnn m (List.mem_cons_self m rest)
      cases m with
      | nan => simp [GoFloat.isNaN] at this
      | val a => exact ⟨a, rfl⟩
    obtain ⟨a, rfl⟩ := hmv
    cases hgt : (GoFloat.val a).gtB (.val q) with
    | true =>
      simp only [hgt, cond_true, List.take_zero, List.drop_zero, List.nil_append]
      have haq : q < a := by
        rw [GoFloat.gtB_true] at hgt
        obtain ⟨p', q', hp', hq', h⟩ := hgt
        cases hp'; cases hq'; exact h
      refine List.pairwise_cons.mpr ⟨?_, hp⟩
      intro b hb
      rcases List.mem_cons.mp hb with rfl | hb
      · rw [GoFloat.leB_true]
        exact ⟨q, a, rfl, rfl, le_of_lt haq⟩
      · have := hm b hb
        rw [GoFloat.leB_true] at this ⊢
        obtain ⟨p', q', hp', rfl, h⟩ := this
        cases hp'
        exact ⟨q, q', rfl, rfl, le_trans (le_of_lt haq) h⟩
    | false =>
      simp only [hgt, cond_false, List.take_succ_cons, List.drop_succ_cons,
        List.cons_append]
      have haq : a ≤ q := by
        cases Decidable.em (a ≤ q) with
        | inl h => exact h
        | inr h =>
          exfalso
          have : (GoFloat.val a).gtB (.val q) = true := by
            rw [GoFloat.gtB_true]
            exact ⟨a, q, rfl, rfl, lt_of_not_le h⟩
          rw [this] at hgt
          exact Bool.false_ne_true hgt.symm
      refine List.pairwise_cons.mpr ⟨?_, ih (fun x hx => hnn x (List.mem_cons_of_mem _ hx)) hrest⟩
      intro b hb
      rcases mem_insert_split_means hb with rfl | hb
      · rw [GoFloat.leB_true]
        exact ⟨a, q, rfl, rfl, haq⟩
      · exact hm b hb

theorem means_noNaN (s : Summary) (hs : SortedS s) :
    ∀ m ∈ means s, m.isNaN = false := by
  intro m hm
  obtain ⟨p, hp, rfl⟩ := List.mem_map.mp hm
  exact hs.1 p hp

theorem Add_preserves_sortedS (s : Summary) (key : GoFloat) (value : Nat)
    (hs : SortedS s) : SortedS (Add s key value).1 := by
  unfold Add
  cases key with
  | nan => simpa [GoFloat.isNaN] using hs
  | val q =>
    by_cases hv : value = 0
    · simpa [GoFloat.isNaN, hv] using hs
    · simp only [GoFloat.isNaN, Bool.false_eq_true, if_false, hv, ite_false]
      constructor
      · intro p hp
        rcases mem_insert_split hp with rfl | hp'
        · rfl
        · exact hs.1 p hp'
      · have hmap : means (s.take (findInsertionIndex s (.val q)) ++
            (GoFloat.val q, value) :: s.drop (findInsertionIndex s (.val q))) =
            (means s).take (findInsertionIndex s (.val q)) ++
              .val q :: (means s).drop (findInsertionIndex s (.val q)) := by
          simp [means, List.map_take, List.map_drop]
        rw [hmap, findInsertionIndex_eq s (.val q) hs]
        exact pairwise_insert_at_findIdx (means s) q (means_noNaN s hs) hs.2

theorem runAdds_sorted (ops : List (GoFloat × Nat)) (s0 s : Summary)
    (h0 : SortedS s0) (h : runAdds s0 ops = some s) : SortedS s := by
  induction ops generalizing s0 with
  | nil =>
    rw [runAdds] at h
    cases h
    exact h0
  | cons op rest ih =>
    obtain ⟨m, c⟩ := op
    rw [runAdds] at h
    rcases hA : Add s0 m c with ⟨s', e⟩
    rw [hA] at h
    cases e with
    | none =>
      refine ih s' ?_ h
      have := Add_preserves_sortedS s0 m c h0
      rwa [hA] at this
    | some err => exact Option.noConfusion h

/-- **C1.** Starting from the empty summary, for every sequence of `Add`
calls with non-NaN mean and positive count (`runAdds` returns `none`
otherwise), the stored mean sequence is non-decreasing afterwards; since
every prefix of a successful sequence is itself successful, the invariant
holds after each call. -/
theorem add_sequence_sorted (ops : List (GoFloat × Nat)) (s : Summary)
    (h : runAdds newSummary ops = some s) : SortedS s :=
  runAdds_sorted ops newSummary s (by constructor <;> simp [newSummary, means]) h

/-- Witness for C1 on a concrete two-step insertion sequence. -/
theorem add_sequence_sorted_witness :
    runAdds newSummary [(.val 2, 1), (.val 1, 3)] =
        some [(.val 1, 3), (.val 2, 1)] ∧
      SortedS [((.val 1 : GoFloat), 3), (.val 2, 1)] :=
  ⟨by decide, add_sequence_sorted [(.val 2, 1), (.val 1, 3)] _ (by decide)⟩

/-- **C4 (amended: non-NaN query).** On a sorted summary, for every
non-NaN query `x`, `Floor(x)` lies in `[-1, Len)` and the indices whose
mean is strictly below `x` are exactly those `≤ Floor(x)`: `Floor(x)` is
the index of the last centroid with mean strictly less than `x`, or `-1`
if there is none. -/
theorem floor_is_last_below (s : Summary) (x : ℚ) (hs : SortedS s) :
    -1 ≤ Floor s (.val x) ∧ Floor s (.val x) < (Len s : Int) ∧
      ∀ i : Nat, i < Len s →
        (((means s).getD i .nan).ltB (.val x) = true ↔
          (i : Int) ≤ Floor s (.val x)) := by
  have hmlen : (means s).length = Len s := by simp [means, Len]
  have hgeMono : ∀ a b : GoFloat, a.leB b = true →
      a.geB (.val x) = true → b.geB (.val x) = true := by
    intro a b hab hPa
    cases a with
    | nan => simp [GoFloat.leB] at hab
    | val p =>
      cases b with
      | nan => simp [GoFloat.leB] at hab
      | val r =>
        simp only [GoFloat.leB, decide_eq_true_eq] at hab
        simp only [GoFloat.geB, decide_eq_true_eq] at hPa ⊢
        exact le_trans hPa hab
  obtain ⟨fle, flow, fat⟩ := findIdx_spec (means s) (fun mean => mean.geB (.val x))
  have hFloor : Floor s (.val x) =
      ((means s).findIdx (fun mean => mean.geB (.val x)) : Int) - 1 := by
    rw [Floor, findIndex_eq s (.val x) hs]
  refine ⟨by rw [hFloor]; omega, by rw [hFloor]; omega, ?_⟩
  intro i hi
  rw [hFloor]
  constructor
  · intro hlt
    by_contra hile
    have hFi : (means s).findIdx (fun mean => mean.geB (.val x)) ≤ i := by omega
    have hFlt : (means s).findIdx (fun mean => mean.geB (.val x)) < (means s).length := by
      omega
    have hgeF := fat hFlt
    have hgei := pairwise_pred_mono (means s) hs.2
      (fun mean => mean.geB (.val x)) hgeMono _ i hFi (by omega) hgeF
    rw [GoFloat.geB_true] at hgei
    rw [GoFloat.ltB_true] at hlt
    obtain ⟨p, q, hp, hq, hpq⟩ := hlt
    obtain ⟨p', q', hp', hq', hq'le⟩ := hgei
    rw [hp] at hp'
    cases hp'
    cases hq
    cases hq'
    exact absurd hpq (not_lt.mpr hq'le)
  · intro hile
    have hiF : i < (means s).findIdx (fun mean => mean.geB (.val x)) := by omega
    have hge := flow i hiF
    have hmem : (means s).getD i .nan ∈ means s := by
      rw [List.getD_eq_getElem (means s) .nan (by omega)]
      exact List.getElem_mem _
    have hnn := means_noNaN s hs _ hmem
    rcases hm : (means s).getD i .nan with _ | a
    · rw [hm] at hnn
      simp [GoFloat.isNaN] at hnn
    · rw [hm] at hge
      rw [GoFloat.ltB_true]
      refine ⟨a, x, rfl, rfl, ?_⟩
      by_contra hax
      rw [show (GoFloat.val a).geB (.val x) = true from ?_] at hge
      · exact Bool.false_ne_true hge.symm
      · rw [GoFloat.geB_true]
        exact ⟨a, x, rfl, rfl, le_of_not_lt hax⟩

/-- Witness for C4 on a concrete sorted summary and query. -/
theorem floor_is_last_below_witness :
    SortedS [((.val 1 : GoFloat), 1), (.val 3, 1)] ∧
      (-1 ≤ Floor [((.val 1 : GoFloat), 1), (.val 3, 1)] (.val 2) ∧
        Floor [((.val 1 : GoFloat), 1), (.val 3, 1)] (.val 2) <
          (Len [((.val 1 : GoFloat), 1), (.val 3, 1)] : Int) ∧
        ∀ i : Nat, i < Len [((.val 1 : GoFloat), 1), (.val 3, 1)] →
          (((means [((.val 1 : GoFloat), 1), (.val 3, 1)]).getD i .nan).ltB
              (.val 2) = true ↔
            (i : Int) ≤ Floor [((.val 1 : GoFloat), 1), (.val 3, 1)] (.val 2))) :=
  ⟨by decide, floor_is_last_below [(.val 1, 1), (.val 3, 1)] 2 (by decide)⟩

/-- **C4 counterexample.** For the summary `[(3.0, 1)]` (sorted, one
centroid) and the float query `x = NaN`, no stored mean is strictly less
than `x` — `mean < NaN` is always false — so the claimed result is `-1`,
but `Floor(NaN)` returns `0`. -/
theorem floor_nan_counterexample :
    Floor [((.val 3 : GoFloat), 1)] .nan = 0 ∧
      (GoFloat.val 3).ltB .nan = false ∧ (0 : Int) ≠ -1 :=
  ⟨by decide, by decide, by decide⟩

theorem ulpExp_small (n : Nat) (h : n < 2 ^ 53) : ulpExp n = 0 := by
  rw [ulpExp, show (2048 : Nat) = 2047 + 1 from rfl, ulpExpAux, if_pos h]

/-- `float64` rounding is the identity up to `2 ^ 53`. -/
theorem roundDouble_id (n : Nat) (h : n ≤ 2 ^ 53) : roundDouble n = n := by
  rcases Nat.lt_or_ge n (2 ^ 53) with hlt | hge
  · rw [roundDouble]
    rw [ulpExp_small n hlt]
    simp
    intro hcon
    exact absurd (Nat.mod_one n) hcon
  · have : n = 2 ^ 53 := by omega
    subst this
    decide

/-- Below `2 ^ 53` the rounded accumulation is the exact sum. -/
theorem flAcc_exact : ∀ (l : List Nat) (cum : Nat), cum + l.sum ≤ 2 ^ 53 →
    flAcc cum l = cum + l.sum := by
  intro l
  induction l with
  | nil => intro cum _; simp [flAcc]
  | cons c rest ih =>
    intro cum h
    rw [List.sum_cons] at h ⊢
    rw [show flAcc cum (c :: rest) =
      flAcc (roundDouble (cum + roundDouble c)) rest from rfl]
    rw [roundDouble_id c (by omega), roundDouble_id (cum + c) (by omega)]
    rw [ih (cum + c) (by omega)]
    omega

theorem take_sum_mono (cs : List Nat) : ∀ {j k : Nat}, j ≤ k →
    (cs.take j).sum ≤ (cs.take k).sum := by
  induction cs with
  | nil => intro j k _; simp
  | cons c rest ih =>
    intro j k h
    cases j with
    | zero => simp
    | succ j' =>
      cases k with
      | zero => omega
      | succ k' =>
        simp only [List.take_succ_cons, List.sum_cons]
        exact Nat.add_le_add_left (ih (by omega)) c

theorem stepsTaken_le (sum : ℚ) (cs : List Nat) : ∀ cum,
    stepsTaken sum cs cum ≤ cs.length := by
  induction cs with
  | nil => intro cum; rw [stepsTaken]; simp
  | cons c rest ih =>
    intro cum
    rw [stepsTaken]
    by_cases hc : (cum : ℚ) ≤ sum
    · rw [if_pos hc]
      simpa using ih (roundDouble (cum + roundDouble c))
    · rw [if_neg hc]
      simp

theorem stepsTaken_pos (sum : ℚ) (c : Nat) (rest : List Nat) (cum : Nat)
    (h : (cum : ℚ) ≤ sum) : 0 < stepsTaken sum (c :: rest) cum := by
  rw [stepsTaken, if_pos h]
  omega

theorem stepsTaken_prefix_le (sum : ℚ) (cs : List Nat) : ∀ cum k,
    cum + cs.sum ≤ 2 ^ 53 → k < stepsTaken sum cs cum →
      ((cum + (cs.take k).sum : Nat) : ℚ) ≤ sum := by
  induction cs with
  | nil => intro cum k _ hk; rw [stepsTaken] at hk; omega
  | cons c rest ih =>
    intro cum k hb hk
    rw [List.sum_cons] at hb
    rw [stepsTaken] at hk
    by_cases hc : (cum : ℚ) ≤ sum
    · rw [if_pos hc, roundDouble_id c (by omega),
        roundDouble_id (cum + c) (by omega)] at hk
      cases k with
      | zero => simpa using hc
      | succ k' =>
        have := ih (cum + c) k' (by omega) (by omega)
        simp only [List.take_succ_cons, List.sum_cons]
        rw [← Nat.add_assoc]
        exact this
    · rw [if_neg hc] at hk
      omega

theorem stepsTaken_prefix_gt (sum : ℚ) (cs : List Nat) : ∀ cum,
    cum + cs.sum ≤ 2 ^ 53 → stepsTaken sum cs cum < cs.length →
      ¬(((cum + (cs.take (stepsTaken sum cs cum)).sum : Nat) : ℚ) ≤ sum) := by
  induction cs with
  | nil => intro cum _ h; rw [stepsTaken] at h; simp at h
  | cons c rest ih =>
    intro cum hb h
    rw [List.sum_cons] at hb
    rw [stepsTaken] at h ⊢
    by_cases hc : (cum : ℚ) ≤ sum
    · rw [if_pos hc, roundDouble_id c (by omega),
        roundDouble_id (cum + c) (by omega)] at h ⊢
      have := ih (cum + c) (by omega) (by simpa using h)
      intro hcontra
      apply this
      rw [List.take_succ_cons, List.sum_cons, ← Nat.add_assoc] at hcontra
      exact hcontra
    · rw [if_neg hc] at h ⊢
      simpa using hc

theorem floorSumAux_eq (cs : List Nat) (sum : ℚ) : ∀ (i : Nat) (cum : Nat) (idx : Int),
    floorSumAux cs sum i cum idx =
      if stepsTaken sum cs cum = 0 then (idx, cum)
      else ((i : Int) + (stepsTaken sum cs cum : Int) - 1,
        flAcc cum (cs.take (stepsTaken sum cs cum))) := by
  induction cs with
  | nil => intro i cum idx; rw [floorSumAux, stepsTaken]; simp
  | cons c rest ih =>
    intro i cum idx
    rw [floorSumAux, stepsTaken]
    by_cases hc : (cum : ℚ) ≤ sum
    · rw [if_pos hc, if_pos hc, ih]
      by_cases ht : stepsTaken sum rest (roundDouble (cum + roundDouble c)) = 0
      · rw [if_pos ht, if_neg (by omega), ht, Prod.mk.injEq]
        refine ⟨by push_cast; omega, ?_⟩
        rw [List.take_succ_cons, List.take_zero]
        rfl
      · rw [if_neg ht, if_neg (by omega), Prod.mk.injEq]
        refine ⟨by push_cast; omega, ?_⟩
        rw [List.take_succ_cons]
        rfl
    · rw [if_neg hc, if_neg hc]
      rw [if_pos rfl]

theorem FloorSum_eq (s : Summary) (sum : ℚ) :
    FloorSum s sum =
      if stepsTaken sum (counts s) 0 = 0 then (-1, 0)
      else ((stepsTaken sum (counts s) 0 : Int) - 1,
        roundDouble (flAcc 0 ((counts s).take (stepsTaken sum (counts s) 0)) -
          roundDouble ((counts s).getD (stepsTaken sum (counts s) 0 - 1) 0))) := by
  rw [FloorSum, floorSumAux_eq]
  by_cases ht : stepsTaken sum (counts s) 0 = 0
  · rw [if_pos ht, if_pos ht]
    simp
  · rw [if_neg ht, if_neg ht]
    dsimp only
    have h1 : ¬((((0 : Nat) : Int)) + (stepsTaken sum (counts s) 0 : Int) - 1 = -1) := by
      push_cast
      omega
    rw [if_pos h1]
    have h2 : ((((0 : Nat) : Int)) + (stepsTaken sum (counts s) 0 : Int) - 1).toNat =
        stepsTaken sum (counts s) 0 - 1 := by
      push_cast
      omega
    rw [h2, Prod.mk.injEq]
    exact ⟨by push_cast; omega, rfl⟩

/-- **C3 (amended: non-negative target).** For every summary and every
`sum ≥ 0`, `FloorSum` returns `index = -1` (with `cumSum = 0`) exactly when
the summary is empty; whenever `Len() > 0` the index is not `-1`. -/
theorem floorSum_neg1_only_when_empty (s : Summary) (sum : ℚ) (h0 : 0 ≤ sum) :
    (Len s = 0 → FloorSum s sum = (-1, 0)) ∧
      (0 < Len s → (FloorSum s sum).1 ≠ -1) := by
  rw [FloorSum_eq]
  constructor
  · intro hlen
    have hnil : counts s = [] := by
      rcases s with _ | _
      · rfl
      · simp [Len] at hlen
    rw [hnil]
    rw [if_pos (by rw [stepsTaken])]
  · intro hlen
    rcases s with _ | ⟨⟨m, c⟩, rest⟩
    · simp [Len] at hlen
    · have hpos : 0 < stepsTaken sum (counts ((m, c) :: rest)) 0 := by
        rw [counts, List.map_cons]
        exact stepsTaken_pos sum c _ 0 (by simpa using h0)
      rw [if_neg (by omega)]
      simp only [ne_eq]
      omega

/-- Witness for C3 on a one-centroid summary with target `0`. -/
theorem floorSum_neg1_only_when_empty_witness :
    (0 : ℚ) ≤ 0 ∧
      ((Len [((.val 7 : GoFloat), 2)] = 0 →
          FloorSum [((.val 7 : GoFloat), 2)] 0 = (-1, 0)) ∧
        (0 < Len [((.val 7 : GoFloat), 2)] →
          (FloorSum [((.val 7 : GoFloat), 2)] 0).1 ≠ -1)) :=
  ⟨le_refl 0, floorSum_neg1_only_when_empty [(.val 7, 2)] 0 (le_refl 0)⟩

/-- **C3 counterexample.** For the non-empty summary `[(3.0, 1)]` and the
negative target `sum = -1`, the loop condition `0 ≤ -1` fails immediately
and `FloorSum(-1)` returns `(-1, 0)` even though `Len() = 1 > 0`. -/
theorem floorSum_neg1_nonempty_counterexample :
    FloorSum [((.val 3 : GoFloat), 1)] (-1) = (-1, 0) ∧
      Len [((.val 3 : GoFloat), 1)] = 1 :=
  ⟨by decide, by decide⟩

/-- **C5 (amended: float64-exact regime).** For every summary whose total
count is at most `2 ^ 53` — so the `float64` accumulator and `HeadSum`'s
`float64(uint64)` conversion are exact and no `uint64` overflow occurs —
and every `sum ≥ 0`, `FloorSum(sum)` returns `(index, cumSum)` with
`index ∈ [-1, Len)`, the positions whose preceding cumulative weight is
`≤ sum` are exactly those `≤ index` (so `index` is the last such
position), and `cumSum` equals the `float64` value `HeadSum(index)`
returns. -/
theorem floorSum_matches_headSum (s : Summary) (sum : ℚ) (h0 : 0 ≤ sum)
    (hof : (counts s).sum ≤ 2 ^ 53) :
    -1 ≤ (FloorSum s sum).1 ∧ (FloorSum s sum).1 < (Len s : Int) ∧
      (∀ i : Nat, i < Len s →
        ((((counts s).take i).sum : ℚ) ≤ sum ↔ (i : Int) ≤ (FloorSum s sum).1)) ∧
      (FloorSum s sum).2 = HeadSumF s (FloorSum s sum).1 := by
  have hclen : (counts s).length = Len s := by simp [counts, Len]
  have hz : roundDouble 0 = 0 := by decide
  rw [FloorSum_eq]
  by_cases ht : stepsTaken sum (counts s) 0 = 0
  · have hnil : counts s = [] := by
      rcases hcs : counts s with _ | ⟨c, rest⟩
      · rfl
      · exfalso
        have := stepsTaken_pos sum c rest 0 (by simpa using h0)
        rw [hcs] at ht
        omega
    have hlen0 : Len s = 0 := by rw [← hclen, hnil]; rfl
    rw [if_pos ht]
    dsimp only
    refine ⟨le_refl _, by rw [hlen0]; decide, ?_, ?_⟩
    · intro i hi
      rw [hlen0] at hi
      omega
    · rw [HeadSumF, HeadSum, sumUntilIndex_eq, hnil]
      simp [hz]
  · have htpos : 0 < stepsTaken sum (counts s) 0 := Nat.pos_of_ne_zero ht
    have htle : stepsTaken sum (counts s) 0 ≤ (counts s).length := stepsTaken_le sum (counts s) 0
    have hb0 : (0 : Nat) + (counts s).sum ≤ 2 ^ 53 := by omega
    have hsum_take : ∀ k, k ≤ (counts s).length → ((counts s).take k).sum ≤ 2 ^ 53 := by
      intro k hk
      have h1 := take_sum_mono (counts s) hk
      rw [List.take_length] at h1
      omega
    rw [if_neg ht]
    dsimp only
    refine ⟨by omega, by omega, ?_, ?_⟩
    · intro i hi
      constructor
      · intro hsi
        by_contra hit
        have hti : stepsTaken sum (counts s) 0 ≤ i := by omega
        have htlt : stepsTaken sum (counts s) 0 < (counts s).length := by omega
        have hgt := stepsTaken_prefix_gt sum (counts s) 0 hb0 htlt
        rw [Nat.zero_add] at hgt
        have hmono : ((counts s).take (stepsTaken sum (counts s) 0)).sum ≤
            ((counts s).take i).sum := take_sum_mono (counts s) hti
        exact hgt (le_trans (by exact_mod_cast hmono) hsi)
      · intro hit
        have hi_t : i < stepsTaken sum (counts s) 0 := by omega
        have := stepsTaken_prefix_le sum (counts s) 0 i hb0 hi_t
        rwa [Nat.zero_add] at this
    · have hlt : stepsTaken sum (counts s) 0 - 1 < (counts s).length := by omega
      have htoNat : ((stepsTaken sum (counts s) 0 : Int) - 1).toNat =
          stepsTaken sum (counts s) 0 - 1 := by omega
      have hbig := hsum_take (stepsTaken sum (counts s) 0) htle
      have hsmall := hsum_take (stepsTaken sum (counts s) 0 - 1) (by omega)
      have hfa : flAcc 0 ((counts s).take (stepsTaken sum (counts s) 0)) =
          ((counts s).take (stepsTaken sum (counts s) 0)).sum := by
        have h := flAcc_exact ((counts s).take (stepsTaken sum (counts s) 0)) 0
          (by omega)
        rwa [Nat.zero_add] at h
      have hsucc : (stepsTaken sum (counts s) 0 - 1) + 1 = stepsTaken sum (counts s) 0 := by
        omega
      have hstep := List.sum_take_succ (counts s) (stepsTaken sum (counts s) 0 - 1) hlt
      rw [hsucc] at hstep
      have hgd : (counts s).getD (stepsTaken sum (counts s) 0 - 1) 0 =
          (counts s)[stepsTaken sum (counts s) 0 - 1] :=
        List.getD_eq_getElem (counts s) 0 hlt
      have helem : (counts s)[stepsTaken sum (counts s) 0 - 1] ≤ 2 ^ 53 := by
        omega
      rw [hfa, hgd, roundDouble_id _ helem, hstep]
      rw [Nat.add_sub_cancel]
      rw [roundDouble_id _ hsmall]
      rw [HeadSumF, HeadSum, sumUntilIndex_eq, htoNat]
      rw [Nat.mod_eq_of_lt (lt_of_le_of_lt hsmall (by rw [M]; norm_num))]
      rw [roundDouble_id _ hsmall]

/-- Witness for C5 on a concrete one-centroid summary. -/
theorem floorSum_matches_headSum_witness :
    (0 : ℚ) ≤ 3 ∧ (counts [((.val 7 : GoFloat), 2)]).sum ≤ 2 ^ 53 ∧
      (-1 ≤ (FloorSum [((.val 7 : GoFloat), 2)] 3).1 ∧
        (FloorSum [((.val 7 : GoFloat), 2)] 3).1 <
          (Len [((.val 7 : GoFloat), 2)] : Int) ∧
        (∀ i : Nat, i < Len [((.val 7 : GoFloat), 2)] →
          ((((counts [((.val 7 : GoFloat), 2)]).take i).sum : ℚ) ≤ 3 ↔
            (i : Int) ≤ (FloorSum [((.val 7 : GoFloat), 2)] 3).1)) ∧
        (FloorSum [((.val 7 : GoFloat), 2)] 3).2 =
          HeadSumF [((.val 7 : GoFloat), 2)] (FloorSum [((.val 7 : GoFloat), 2)] 3).1) :=
  ⟨by decide, by decide,
    floorSum_matches_headSum [(.val 7, 2)] 3 (by decide) (by decide)⟩

/-- **C5 counterexample.** Two failures of the original claim, with the
`float64` accumulator rounding modelled faithfully (round half to even).
Rounding: with counts `[2^53, 1]` and `sum = 2^53`, both positions
qualify, the accumulator rounds `2^53 + 1` back down to `2^53` (tie to
even), and the final subtraction yields `2^53 - 1`, while `HeadSum(1)`
returns `float64(2^53) = 2^53` — so `cumSum ≠ HeadSum(index)` already far
below the `uint64` range.  Overflow: with counts `[2^63, 2^63, 1]` and
`sum = 2^64`, the accumulator reaches `2^64` and `cumSum = 2^64`, but
`HeadSum(2)` wraps to `0` in `uint64` arithmetic. -/
theorem floorSum_float_counterexample :
    (0 : ℚ) ≤ ((2 ^ 53 : Nat) : ℚ) ∧
      FloorSum [((.val 0 : GoFloat), 2 ^ 53), (.val 1, 1)] ((2 ^ 53 : Nat) : ℚ) =
        (1, 2 ^ 53 - 1) ∧
      HeadSumF [((.val 0 : GoFloat), 2 ^ 53), (.val 1, 1)] 1 = 2 ^ 53 ∧
      (2 ^ 53 - 1 : Nat) ≠ 2 ^ 53 ∧
      (0 : ℚ) ≤ ((2 ^ 64 : Nat) : ℚ) ∧
      FloorSum [((.val 0 : GoFloat), 2 ^ 63), (.val 1, 2 ^ 63), (.val 2, 1)]
          ((2 ^ 64 : Nat) : ℚ) = (2, 2 ^ 64) ∧
      HeadSumF [((.val 0 : GoFloat), 2 ^ 63), (.val 1, 2 ^ 63), (.val 2, 1)] 2 = 0 ∧
      (2 ^ 64 : Nat) ≠ 0 :=
  ⟨by decide, by decide, by decide, by decide, by decide, by decide, by decide, by decide⟩

theorem cons_set_perm (l : List Centroid) : ∀ (k : Nat) (a : Centroid),
    k < l.length → (l.getD k (.nan, 0) :: l.set k a).Perm (a :: l) := by
  induction l with
  | nil => intro k a hk; simp at hk
  | cons b t ih =>
    intro k a hk
    cases k with
    | zero =>
      simp only [List.getD_cons_zero, List.set_cons_zero]
      exact List.Perm.swap a b t
    | succ k' =>
      simp only [List.getD_cons_succ, List.set_cons_succ]
      have hk' : k' < t.length := by simpa using hk
      have h1 : (t.getD k' (.nan, 0) :: b :: t.set k' a).Perm
          (b :: t.getD k' (.nan, 0) :: t.set k' a) :=
        List.Perm.swap b (t.getD k' (.nan, 0)) (t.set k' a)
      have h2 : (b :: t.getD k' (.nan, 0) :: t.set k' a).Perm (b :: a :: t) :=
        List.Perm.cons b (ih k' a hk')
      exact (h1.trans h2).trans (List.Perm.swap a b t)

theorem swapPairs_perm : ∀ (l : List Centroid) (i j : Nat),
    i < l.length → j < l.length → (swapPairs l i j).Perm l := by
  intro l
  induction l with
  | nil => intro i j hi _; simp at hi
  | cons b t ih =>
    intro i j hi hj
    cases i with
    | zero =>
      cases j with
      | zero =>
        simp only [swapPairs, List.getD_cons_zero, List.set_cons_zero]
        exact List.Perm.refl _
      | succ k =>
        have hk : k < t.length := by simpa using hj
        simp only [swapPairs, List.getD_cons_zero, List.getD_cons_succ,
          List.set_cons_zero, List.set_cons_succ]
        exact cons_set_perm t k b hk
    | succ m =>
      cases j with
      | zero =>
        have hm : m < t.length := by simpa using hi
        simp only [swapPairs, List.getD_cons_zero, List.getD_cons_succ,
          List.set_cons_zero, List.set_cons_succ]
        exact cons_set_perm t m b hm
      | succ k =>
        have hm : m < t.length := by simpa using hi
        have hk : k < t.length := by simpa using hj
        simp only [swapPairs, List.getD_cons_succ, List.set_cons_succ]
        exact List.Perm.cons b (ih m k hm hk)

theorem swapPairs_length (l : List Centroid) (i j : Nat) :
    (swapPairs l i j).length = l.length := by
  simp [swapPairs]

theorem shuffleAux_perm (rng : Nat → Nat) (hr : ∀ k, 0 < k → rng k < k) :
    ∀ (i : Nat) (l : Summary), i < l.length → (shuffleAux rng i l).Perm l := by
  intro i
  induction i using Nat.strong_induction_on with
  | _ i ih =>
    match i with
    | 0 => intro l _; exact List.Perm.refl l
    | 1 => intro l _; exact List.Perm.refl l
    | i' + 2 =>
      intro l hil
      have hj : rng (i' + 3) < l.length :=
        lt_of_lt_of_le (hr (i' + 3) (by omega)) (by omega)
      have hsw : (swapPairs l (i' + 2) (rng (i' + 3))).Perm l :=
        swapPairs_perm l _ _ hil hj
      have hlen := swapPairs_length l (i' + 2) (rng (i' + 3))
      exact ((ih (i' + 1) (by omega) _ (by omega)).trans hsw :
        (shuffleAux rng (i' + 2) l).Perm l)

/-- **C10.** For every summary and every random source whose draw
`Intn(k)` lies in `[0, k)`, `shuffle` preserves the multiset of
`(mean, count)` pairs — the stored contents afterwards are a permutation
of the contents before, each mean still paired with its original count —
and therefore also preserves `Len()` and `GetTotalCount()`. -/
theorem shuffle_preserves_contents (l : Summary) (rng : Nat → Nat)
    (hr : ∀ k, 0 < k → rng k < k) :
    (shuffle l rng).Perm l ∧ Len (shuffle l rng) = Len l ∧
      GetTotalCount (shuffle l rng) = GetTotalCount l := by
  have hperm : (shuffle l rng).Perm l := by
    rcases l with _ | ⟨a, t⟩
    · exact List.Perm.refl _
    · exact shuffleAux_perm rng hr ((a :: t).length - 1) (a :: t) (by simp)
  refine ⟨hperm, hperm.length_eq, ?_⟩
  rw [GetTotalCount, GetTotalCount, foldl_mod_eq _ 0 M_pos, foldl_mod_eq _ 0 M_pos]
  have : (counts (shuffle l rng)).sum = (counts l).sum := (hperm.map Prod.snd).sum_eq
  rw [this]

/-- Witness for C10 on a four-element summary and the constant-zero rng. -/
theorem shuffle_preserves_contents_witness :
    (∀ k : Nat, 0 < k → (fun _ : Nat => 0) k < k) ∧
      ((shuffle [((.val 1 : GoFloat), 1), (.val 2, 2), (.val 3, 3), (.val 4, 4)]
            (fun _ => 0)).Perm
          [((.val 1 : GoFloat), 1), (.val 2, 2), (.val 3, 3), (.val 4, 4)] ∧
        Len (shuffle [((.val 1 : GoFloat), 1), (.val 2, 2), (.val 3, 3), (.val 4, 4)]
            (fun _ => 0)) =
          Len [((.val 1 : GoFloat), 1), (.val 2, 2), (.val 3, 3), (.val 4, 4)] ∧
        GetTotalCount
            (shuffle [((.val 1 : GoFloat), 1), (.val 2, 2), (.val 3, 3), (.val 4, 4)]
              (fun _ => 0)) =
          GetTotalCount [((.val 1 : GoFloat), 1), (.val 2, 2), (.val 3, 3), (.val 4, 4)]) :=
  ⟨fun k hk => hk,
    shuffle_preserves_contents
      [(.val 1, 1), (.val 2, 2), (.val 3, 3), (.val 4, 4)] (fun _ => 0)
      (fun k hk => hk)⟩

/-- **C9 counterexample.** The shuffle loop guard is `i > 1`, so for the
two-element summary `[(3.0, 1), (5.0, 2)]` no swap is ever performed: the
transposed arrangement is unreachable for every random source, refuting
the claimed iteration down to `i = 1` with every permutation reachable. -/
theorem shuffle_pair_unreachable_counterexample :
    ¬∃ rng : Nat → Nat, shuffle [((.val 3 : GoFloat), 1), (.val 5, 2)] rng =
      [(.val 5, 2), (.val 3, 1)] := by
  rintro ⟨rng, h⟩
  rw [show shuffle [((.val 3 : GoFloat), 1), (.val 5, 2)] rng =
      [((.val 3 : GoFloat), 1), (.val 5, 2)] from rfl] at h
  exact absurd h (by decide)

/-- **C9 (amended).** `shuffle` iterates `i` from `n - 1` down to `2` (the
loop guard is `i > 1`, not `i > 0`), each step swapping position `i` with
`rng.Intn(i + 1)`; consequently a two-element summary is returned
unchanged for every random source, and not every permutation of the stored
contents is reachable. -/
theorem shuffle_pair_fixed (a b : Centroid) (rng : Nat → Nat) :
    shuffle [a, b] rng = [a, b] := rfl

theorem GoFloat.leB_trans (a b c : GoFloat) (h1 : a.leB b = true)
    (h2 : b.leB c = true) : a.leB c = true := by
  cases a with
  | nan => simp [GoFloat.leB] at h1
  | val p =>
    cases b with
    | nan => simp [GoFloat.leB] at h1
    | val r =>
      cases c with
      | nan => simp [GoFloat.leB] at h2
      | val t =>
        simp only [GoFloat.leB, decide_eq_true_eq] at h1 h2 ⊢
        exact le_trans h1 h2

theorem GoFloat.leB_not_gtB (a b : GoFloat) (h : a.leB b = true) :
    a.gtB b = false := by
  cases a with
  | nan => simp [GoFloat.leB] at h
  | val p =>
    cases b with
    | nan => simp [GoFloat.leB] at h
    | val r =>
      simp only [GoFloat.leB, decide_eq_true_eq] at h
      simp only [GoFloat.gtB, decide_eq_false_iff_not]
      exact not_lt.mpr h

theorem GoFloat.gtB_leB_swap (a b : GoFloat) (h : a.gtB b = true) :
    b.leB a = true := by
  cases a with
  | nan => simp [GoFloat.gtB] at h
  | val p =>
    cases b with
    | nan => simp [GoFloat.gtB] at h
    | val r =>
      simp only [GoFloat.gtB, decide_eq_true_eq] at h
      simp only [GoFloat.leB, decide_eq_true_eq]
      exact le_of_lt h

theorem adjustRightAux_eq (a : Centroid) : ∀ (l : List Centroid),
    adjustRightAux (a :: l) =
      l.takeWhile (fun b => a.1.gtB b.1) ++ a :: l.dropWhile (fun b => a.1.gtB b.1) := by
  intro l
  induction l with
  | nil =>
    rw [adjustRightAux.eq_2 [a] (fun x y rest h => by simp at h)]
    simp
  | cons b t ih =>
    rw [adjustRightAux.eq_1]
    rw [List.takeWhile_cons, List.dropWhile_cons]
    by_cases hb : a.1.gtB b.1 = true
    · rw [if_pos hb, if_pos hb, if_pos hb, ih]
      rfl
    · rw [if_neg hb, if_neg hb, if_neg hb]
      rfl

theorem adjustLeftAux_eq (a : Centroid) : ∀ (rpre rest : List Centroid),
    adjustLeftAux rpre a rest =
      (rpre.dropWhile (fun b => b.1.gtB a.1)).reverse ++
        a :: ((rpre.takeWhile (fun b => b.1.gtB a.1)).reverse ++ rest) := by
  intro rpre
  induction rpre with
  | nil => intro rest; rfl
  | cons b rp ih =>
    intro rest
    show (if b.1.gtB a.1 then adjustLeftAux rp a (b :: rest)
        else (b :: rp).reverse ++ a :: rest) = _
    rw [List.takeWhile_cons, List.dropWhile_cons]
    by_cases hb : b.1.gtB a.1 = true
    · rw [if_pos hb, if_pos hb, if_pos hb, ih, List.reverse_cons, List.append_assoc,
        List.singleton_append]
    · rw [if_neg hb, if_neg hb, if_neg hb, List.reverse_nil, List.nil_append]

theorem adjustRightAux_perm : ∀ (l : List Centroid), (adjustRightAux l).Perm l := by
  intro l
  match l with
  | [] =>
    rw [adjustRightAux.eq_2 [] (fun x y rest h => by simp at h)]
  | [a] =>
    rw [adjustRightAux.eq_2 [a] (fun x y rest h => by simp at h)]
  | a :: b :: t =>
    rw [adjustRightAux_eq a (b :: t)]
    refine List.perm_middle.trans ?_
    rw [List.takeWhile_append_dropWhile]

theorem adjustRight_perm (X : Summary) (i : Nat) : (adjustRight X i).Perm X := by
  rw [adjustRight]
  refine (List.Perm.append_left (X.take i) (adjustRightAux_perm (X.drop i))).trans ?_
  rw [List.take_append_drop]

theorem adjustLeft_perm (X : Summary) (i : Nat) : (adjustLeft X i).Perm X := by
  rcases hd : X.drop i with _ | ⟨a, tl⟩
  · rw [adjustLeft.eq_def, hd]
  · have hX : X.take i ++ a :: tl = X := by rw [← hd, List.take_append_drop]
    rw [adjustLeft.eq_def, hd]
    show (adjustLeftAux (X.take i).reverse a tl).Perm X
    rw [adjustLeftAux_eq]
    refine List.perm_middle.trans ?_
    have heq : ((X.take i).reverse.dropWhile (fun b => b.1.gtB a.1)).reverse ++
        (((X.take i).reverse.takeWhile (fun b => b.1.gtB a.1)).reverse ++ tl) =
        X.take i ++ tl := by
      rw [← List.append_assoc, ← List.reverse_append, List.takeWhile_append_dropWhile,
        List.reverse_reverse]
    rw [heq]
    have hmid : (a :: (X.take i ++ tl)).Perm (X.take i ++ a :: tl) :=
      List.perm_middle.symm
    rw [hX] at hmid
    exact hmid

theorem setAt_perm (s : Summary) (i : Nat) (m : GoFloat) (c : Nat) :
    (setAt s i m c).Perm (s.set i (m, c)) :=
  (adjustLeft_perm _ i).trans (adjustRight_perm _ i)

theorem pairwise_insert_between (R : Centroid → Centroid → Prop)
    (B1 B2 : List Centroid) (x : Centroid) (h12 : (B1 ++ B2).Pairwise R)
    (h1 : ∀ u ∈ B1, R u x) (h2 : ∀ v ∈ B2, R x v) :
    (B1 ++ x :: B2).Pairwise R := by
  rcases List.pairwise_append.mp h12 with ⟨hb1, hb2, hcr⟩
  refine List.pairwise_append.mpr ⟨hb1, List.pairwise_cons.mpr ⟨h2, hb2⟩, ?_⟩
  intro u hu v hv
  rcases List.mem_cons.mp hv with rfl | hv
  · exact h1 u hu
  · exact hcr u hu v hv

/-- Everything surviving `dropWhile (· > q)` on a reverse-sorted list is
`≤ q` (needs non-NaN values at the stop point). -/
theorem dropWhile_rev_all_le (q : ℚ) : ∀ (rp : List Centroid),
    rp.Pairwise (fun u v => v.1.leB u.1 = true) →
    (∀ p ∈ rp, ∃ a, p.1 = GoFloat.val a) →
    ∀ u ∈ rp.dropWhile (fun b => b.1.gtB (.val q)), u.1.leB (.val q) = true := by
  intro rp
  induction rp with
  | nil => intro _ _ u hu; simp at hu
  | cons b rt ih =>
    intro hp hv u hu
    rw [List.dropWhile_cons] at hu
    rcases List.pairwise_cons.mp hp with ⟨hb, hrt⟩
    by_cases hbq : b.1.gtB (.val q) = true
    · rw [if_pos hbq] at hu
      exact ih hrt (fun p hp' => hv p (List.mem_cons_of_mem _ hp')) u hu
    · rw [if_neg hbq] at hu
      obtain ⟨a, hba⟩ := hv b (List.mem_cons_self b rt)
      have hbl : b.1.leB (.val q) = true := by
        rw [hba] at hbq ⊢
        simp only [GoFloat.gtB, decide_eq_true_eq] at hbq
        simp only [GoFloat.leB, decide_eq_true_eq]
        exact le_of_not_lt hbq
      rcases List.mem_cons.mp hu with rfl | hu'
      · exact hbl
      · exact GoFloat.leB_trans u.1 b.1 (.val q) (hb u hu') hbl

/-- Everything surviving `dropWhile (q > ·)` on a sorted list is `≥ q`
(needs non-NaN values at the stop point). -/
theorem dropWhile_all_ge (q : ℚ) : ∀ (l : List Centroid),
    l.Pairwise (fun u v => u.1.leB v.1 = true) →
    (∀ p ∈ l, ∃ a, p.1 = GoFloat.val a) →
    ∀ v ∈ l.dropWhile (fun b => (GoFloat.val q).gtB b.1),
      (GoFloat.val q).leB v.1 = true := by
  intro l
  induction l with
  | nil => intro _ _ v hv; simp at hv
  | cons b rt ih =>
    intro hp hv v hvm
    rw [List.dropWhile_cons] at hvm
    rcases List.pairwise_cons.mp hp with ⟨hb, hrt⟩
    by_cases hbq : (GoFloat.val q).gtB b.1 = true
    · rw [if_pos hbq] at hvm
      exact ih hrt (fun p hp' => hv p (List.mem_cons_of_mem _ hp')) v hvm
    · rw [if_neg hbq] at hvm
      obtain ⟨a, hba⟩ := hv b (List.mem_cons_self b rt)
      have hbl : (GoFloat.val q).leB b.1 = true := by
        rw [hba] at hbq ⊢
        simp only [GoFloat.gtB, decide_eq_true_eq] at hbq
        simp only [GoFloat.leB, decide_eq_true_eq]
        exact le_of_not_lt hbq
      rcases List.mem_cons.mp hvm with rfl | hv'
      · exact hbl
      · exact GoFloat.leB_trans (.val q) b.1 v.1 hbl (hb v hv')

/-- **C7.** On a sorted summary, overwriting a valid index with a non-NaN
mean and any count via `setAt` (write, bubble right, bubble left) restores
the sort invariant. -/
theorem setAt_preserves_sorted (s : Summary) (index : Nat) (m : GoFloat)
    (c : Nat) (hs : SortedS s) (hidx : index < Len s) (hm : m.isNaN = false) :
    SortedS (setAt s index m c) := by
  obtain ⟨q, rfl⟩ : ∃ q, m = GoFloat.val q := by
    cases m with
    | nan => simp [GoFloat.isNaN] at hm
    | val q => exact ⟨q, rfl⟩
  have hslen : index < s.length := hidx
  have hnn : ∀ p ∈ setAt s index (.val q) c, p.1.isNaN = false := by
    intro p hp
    have hp' := (setAt_perm s index (.val q) c).mem_iff.mp hp
    rcases List.mem_or_eq_of_mem_set hp' with h | h
    · exact hs.1 p h
    · rw [h]
      simp [GoFloat.isNaN]
  refine ⟨hnn, ?_⟩
  rw [means, List.pairwise_map]
  have hpS : s.Pairwise (fun u v => u.1.leB v.1 = true) := by
    have h2 := hs.2
    rw [means] at h2
    exact List.pairwise_map.mp h2
  have hvals : ∀ p ∈ s, ∃ a, p.1 = GoFloat.val a := by
    intro p hp
    have hnp := hs.1 p hp
    cases hq : p.1 with
    | nan => rw [hq] at hnp; simp [GoFloat.isNaN] at hnp
    | val a => exact ⟨a, rfl⟩
  have hplen : (s.take index).length = index := by
    rw [List.length_take]
    omega
  rcases hdrop : s.drop index with _ | ⟨old, post⟩
  · exfalso
    have hlen := congrArg List.length hdrop
    rw [List.length_drop] at hlen
    simp at hlen
    omega
  have hS : s.take index ++ old :: post = s := by rw [← hdrop, List.take_append_drop]
  have hPS : (s.take index ++ old :: post).Pairwise (fun u v => u.1.leB v.1 = true) := by
    rw [hS]
    exact hpS
  rcases List.pairwise_append.mp hPS with ⟨hpre, hmidpost, hcross'⟩
  rcases List.pairwise_cons.mp hmidpost with ⟨hold_post, hpost⟩
  have hcross : ∀ u ∈ s.take index, ∀ v ∈ post, u.1.leB v.1 = true :=
    fun u hu v hv => hcross' u hu v (List.mem_cons_of_mem _ hv)
  have hprepost : (s.take index ++ post).Pairwise (fun u v => u.1.leB v.1 = true) :=
    List.pairwise_append.mpr ⟨hpre, hpost, hcross⟩
  have hvals_pre : ∀ p ∈ s.take index, ∃ a, p.1 = GoFloat.val a :=
    fun p hp => hvals p (List.mem_of_mem_take hp)
  have hvals_post : ∀ p ∈ post, ∃ a, p.1 = GoFloat.val a := by
    intro p hp
    have hpd : p ∈ s.drop index := by
      rw [hdrop]
      exact List.mem_cons_of_mem old hp
    exact hvals p (List.mem_of_mem_drop hpd)
  have hset : s.set index (GoFloat.val q, c) =
      s.take index ++ (GoFloat.val q, c) :: s.drop (index + 1) := by
    rw [List.set_eq_take_append_cons_drop, if_pos hslen]
  have hpost_eq : s.drop (index + 1) = post := by
    have h1 : List.drop 1 (List.drop index s) = List.drop (index + 1) s :=
      List.drop_drop 1 index s
    rw [hdrop] at h1
    rw [← h1]
    rfl
  rw [setAt, hset, hpost_eq]
  have hARtake : (s.take index ++ (GoFloat.val q, c) :: post).take index = s.take index := by
    have h := List.take_left (s.take index) ((GoFloat.val q, c) :: post)
    rwa [hplen] at h
  have hARdrop : (s.take index ++ (GoFloat.val q, c) :: post).drop index =
      (GoFloat.val q, c) :: post := by
    have h := List.drop_left (s.take index) ((GoFloat.val q, c) :: post)
    rwa [hplen] at h
  have hAR : adjustRight (s.take index ++ (GoFloat.val q, c) :: post) index =
      s.take index ++ adjustRightAux ((GoFloat.val q, c) :: post) := by
    rw [adjustRight, hARtake, hARdrop]
  rw [hAR, adjustRightAux_eq]
  dsimp only
  rcases htw : post.takeWhile (fun b => (GoFloat.val q).gtB b.1) with _ | ⟨b0, twtl⟩
  · -- the new element did not move right
    rw [htw, List.nil_append]
    have hdw : post.dropWhile (fun b => (GoFloat.val q).gtB b.1) = post := by
      have h := List.takeWhile_append_dropWhile (fun b => (GoFloat.val q).gtB b.1) post
      rwa [htw, List.nil_append] at h
    rw [hdw]
    have hALdrop2 : (s.take index ++ (GoFloat.val q, c) :: post).drop index =
        (GoFloat.val q, c) :: post := hARdrop
    have hAL : adjustLeft (s.take index ++ (GoFloat.val q, c) :: post) index =
        adjustLeftAux (s.take index).reverse (GoFloat.val q, c) post := by
      rw [adjustLeft.eq_def, hALdrop2, hARtake]
    rw [hAL, adjustLeftAux_eq]
    dsimp only
    refine pairwise_insert_between _ _ _ _ ?_ ?_ ?_
    · have heq : ((s.take index).reverse.dropWhile
            (fun b => b.1.gtB (GoFloat.val q))).reverse ++
          (((s.take index).reverse.takeWhile
            (fun b => b.1.gtB (GoFloat.val q))).reverse ++ post) =
          s.take index ++ post := by
        rw [← List.append_assoc, ← List.reverse_append,
          List.takeWhile_append_dropWhile, List.reverse_reverse]
      rw [heq]
      exact hprepost
    · intro u hu
      rw [List.mem_reverse] at hu
      exact dropWhile_rev_all_le q (s.take index).reverse
        (List.pairwise_reverse.mpr hpre)
        (fun p hp => hvals_pre p (by rwa [List.mem_reverse] at hp)) u hu
    · intro v hv
      rcases List.mem_append.mp hv with hv | hv
      · rw [List.mem_reverse] at hv
        have hvq := List.mem_takeWhile_imp hv
        exact GoFloat.gtB_leB_swap _ _ hvq
      · have hv' : v ∈ post.dropWhile (fun b => (GoFloat.val q).gtB b.1) := by
          rw [hdw]
          exact hv
        exact dropWhile_all_ge q post hpost hvals_post v hv'
  · -- the new element moved right past `b0 :: twtl`
    have hb0post : b0 ∈ post := by
      have hb0 : b0 ∈ post.takeWhile (fun b => (GoFloat.val q).gtB b.1) := by
        rw [htw]
        exact List.mem_cons_self _ _
      exact (List.takeWhile_sublist _).mem hb0
    have hb0q : (GoFloat.val q).gtB b0.1 = true := by
      have hb0 : b0 ∈ post.takeWhile (fun b => (GoFloat.val q).gtB b.1) := by
        rw [htw]
        exact List.mem_cons_self _ _
      have h := List.mem_takeWhile_imp hb0
      exact h
    rw [htw, List.cons_append]
    have hALdropB : (s.take index ++ b0 :: (twtl ++ (GoFloat.val q, c) ::
        post.dropWhile (fun b => (GoFloat.val q).gtB b.1))).drop index =
        b0 :: (twtl ++ (GoFloat.val q, c) ::
          post.dropWhile (fun b => (GoFloat.val q).gtB b.1)) := by
      have h := List.drop_left (s.take index) (b0 :: (twtl ++ (GoFloat.val q, c) ::
        post.dropWhile (fun b => (GoFloat.val q).gtB b.1)))
      rwa [hplen] at h
    have hALtakeB : (s.take index ++ b0 :: (twtl ++ (GoFloat.val q, c) ::
        post.dropWhile (fun b => (GoFloat.val q).gtB b.1))).take index = s.take index := by
      have h := List.take_left (s.take index) (b0 :: (twtl ++ (GoFloat.val q, c) ::
        post.dropWhile (fun b => (GoFloat.val q).gtB b.1)))
      rwa [hplen] at h
    have hALB : adjustLeft (s.take index ++ b0 :: (twtl ++ (GoFloat.val q, c) ::
        post.dropWhile (fun b => (GoFloat.val q).gtB b.1))) index =
        adjustLeftAux (s.take index).reverse b0 (twtl ++ (GoFloat.val q, c) ::
          post.dropWhile (fun b => (GoFloat.val q).gtB b.1)) := by
      rw [adjustLeft.eq_def, hALdropB, hALtakeB]
    rw [hALB, adjustLeftAux_eq]
    have htwB : (s.take index).reverse.takeWhile (fun b => b.1.gtB b0.1) = [] := by
      rcases hpr : (s.take index).reverse with _ | ⟨r, rp⟩
      · rfl
      · rw [List.takeWhile_cons, if_neg ?_]
        have hrpre : r ∈ s.take index := by
          rw [← List.mem_reverse, hpr]
          exact List.mem_cons_self _ _
        have hrb0 := hcross r hrpre b0 hb0post
        have hf := GoFloat.leB_not_gtB r.1 b0.1 hrb0
        intro hcon
        rw [hf] at hcon
        exact Bool.false_ne_true hcon
    have hdwB : (s.take index).reverse.dropWhile (fun b => b.1.gtB b0.1) =
        (s.take index).reverse := by
      have h := List.takeWhile_append_dropWhile (fun b => b.1.gtB b0.1)
        (s.take index).reverse
      rwa [htwB, List.nil_append] at h
    rw [htwB, hdwB, List.reverse_reverse, List.reverse_nil, List.nil_append]
    have hassoc : s.take index ++ b0 :: (twtl ++ (GoFloat.val q, c) ::
        post.dropWhile (fun b => (GoFloat.val q).gtB b.1)) =
        (s.take index ++ b0 :: twtl) ++ (GoFloat.val q, c) ::
          post.dropWhile (fun b => (GoFloat.val q).gtB b.1) := by
      rw [List.append_assoc, List.cons_append]
    rw [hassoc]
    refine pairwise_insert_between _ _ _ _ ?_ ?_ ?_
    · have heq2 : (s.take index ++ b0 :: twtl) ++
          post.dropWhile (fun b => (GoFloat.val q).gtB b.1) = s.take index ++ post := by
        rw [List.append_assoc]
        congr 1
        rw [← htw]
        exact List.takeWhile_append_dropWhile _ _
      rw [heq2]
      exact hprepost
    · intro u hu
      rcases List.mem_append.mp hu with hu | hu
      · have h1 := hcross u hu b0 hb0post
        have h2 := GoFloat.gtB_leB_swap _ _ hb0q
        exact GoFloat.leB_trans _ _ _ h1 h2
      · have hu' : u ∈ post.takeWhile (fun b => (GoFloat.val q).gtB b.1) := by
          rw [htw]
          exact hu
        have huq := List.mem_takeWhile_imp hu'
        exact GoFloat.gtB_leB_swap _ _ huq
    · intro v hv
      exact dropWhile_all_ge q post hpost hvals_post v hv

/-- Witness for C7: overwrite index 0 of a sorted two-element summary with
a larger mean; the element bubbles right and the result is sorted. -/
theorem setAt_preserves_sorted_witness :
    SortedS [((.val 1 : GoFloat), 1), (.val 2, 1)] ∧
      0 < Len [((.val 1 : GoFloat), 1), (.val 2, 1)] ∧
      (GoFloat.val 5).isNaN = false ∧
      SortedS (setAt [((.val 1 : GoFloat), 1), (.val 2, 1)] 0 (.val 5) 7) :=
  ⟨by decide, by decide, by decide,
    setAt_preserves_sorted [(.val 1, 1), (.val 2, 1)] 0 (.val 5) 7
      (by decide) (by decide) (by decide)⟩

end TDigest
